import Mathlib

/-!
Verification of the bias-add + residual-add + layer-norm + FP8 scale/amax
operator benchmark (`bias_add_ln_bf16.py`).

Tensors are modelled as flat `List ℚ` (exact arithmetic in place of
floating point), with shapes carried separately where a claim needs them.
The square root used by layer normalization is not rational, so every
definition that needs it takes an explicit function `sq : ℚ → ℚ`;
theorems that depend on its defining property `sq v * sq v = v` take that
as a hypothesis on the values actually used.
-/

namespace BiasAddLn

/-- Arithmetic mean of a list (0 for the empty list, as `x / 0 = 0` in ℚ). -/
def mean (l : List ℚ) : ℚ := l.sum / l.length

/-- Biased (divide-by-N) variance of a list. -/
def varB (l : List ℚ) : ℚ := (l.map (fun p => (p - mean l) ^ 2)).sum / l.length

/-- Embedding of `torch.amax(torch.abs(t))` over a 2-D tensor: the maximum absolute value
of all elements (0 for an empty tensor). -/
def amaxOf (t : List (List ℚ)) : ℚ := (t.flatten.map (fun v => |v|)).foldl max 0

/-- Computes `x + bias` where the 1-D `bias` is broadcast along every axis of `x`
except the last (feature) axis of extent `last`:
flat element `i` receives `bias[i % last]`. -/
def addBias (last : ℕ) (x bias : List ℚ) : List ℚ :=
  x.mapIdx (fun i v => v + bias.getD (i % last) 0)

/-- Embedding of `t.view(-1, n)`: reshape a flat tensor into rows of length `n`
(row `i` holds flat elements `n*i .. n*i+n-1`). -/
def view2d (n : ℕ) (l : List ℚ) : List (List ℚ) :=
  (List.range (l.length / n)).map (fun i => (l.drop (n * i)).take n)

/-- Embedding of `torch.nn.functional.layer_norm` on a 2-D input, normalizing over the
last axis: per row, `(p - mean) / sqrt(var + eps) * w + b` with biased
variance, the square root supplied by `sq`. -/
def layer_norm (sq : ℚ → ℚ) (eps : ℚ) (w b : List ℚ) (t : List (List ℚ)) :
    List (List ℚ) :=
  t.map (fun row =>
    List.zipWith (fun pw bi => pw + bi)
      (List.zipWith (fun p wi => (p - mean row) / sq (varB row + eps) * wi) row w)
      b)

/-- The bias-add output `out1` of `bias_add_ln_native`:
`((x + bias) + residual).view(-1, w_shape[-1])`. -/
def nativeBda (last : ℕ) (x bias residual : List ℚ) : List (List ℚ) :=
  view2d last (List.zipWith (fun a b => a + b) (addBias last x bias) residual)

/-- The unscaled layer-norm output `out2` of `bias_add_ln_native` (before the
FP8 scale is applied): effective weight is `1 + ln_weight` when
`zero_centered_gamma`, else `ln_weight`. -/
def nativeUnscaledLn (sq : ℚ → ℚ) (last : ℕ) (x bias residual ln_weight ln_bias : List ℚ)
    (eps : ℚ) (zero_centered_gamma : Bool) : List (List ℚ) :=
  let w := if zero_centered_gamma then ln_weight.map (fun v => 1 + v) else ln_weight
  layer_norm sq eps w ln_bias (nativeBda last x bias residual)

/-- Result triple of the native implementation: `out1` (bias-add, 2-D),
`out2` (scaled layer-norm output) and the value left in the amax
accumulator tensor. -/
structure NativeOut where
  bda : List (List ℚ)
  lnOut : List (List ℚ)
  amaxAcc : ℚ
deriving DecidableEq, Repr

/-- Embedding of `bias_add_ln_native`: bias-add + residual, view to 2-D, layer norm,
amax of the unscaled output written into the accumulator (`fill_`
overwrites whatever `amaxAccIn` held), then multiply by the FP8 scale. -/
def bias_add_ln_native (sq : ℚ → ℚ) (last : ℕ)
    (x bias residual ln_weight ln_bias : List ℚ) (eps : ℚ)
    (zero_centered_gamma : Bool) (scale amaxAccIn : ℚ) : NativeOut :=
  let out1 := nativeBda last x bias residual
  let out2 := nativeUnscaledLn sq last x bias residual ln_weight ln_bias eps
      zero_centered_gamma
  let amax := amaxOf out2
  let _ := amaxAccIn
  { bda := out1
    lnOut := out2.map (List.map (fun v => v * scale))
    amaxAcc := amax }

/-- The function `bias_add_ln_compile` just wraps the native implementation
(`torch.compile` of the same function body). -/
def bias_add_ln_compile (sq : ℚ → ℚ) (last : ℕ)
    (x bias residual ln_weight ln_bias : List ℚ) (eps : ℚ)
    (zero_centered_gamma : Bool) (scale amaxAccIn : ℚ) : NativeOut :=
  bias_add_ln_native sq last x bias residual ln_weight ln_bias eps
    zero_centered_gamma scale amaxAccIn

/-- Reference model, written from the spec (§4.1 steps 1–7):
`pre = x + bias_broadcast + residual` reshaped to 2-D (`bda_out`);
per-row `normalized = (pre - mean) / sqrt(variance + eps)` with biased
variance; `w_eff = zero_centered_gamma ? (1 + ln_weight) : ln_weight`;
`ln_out_unscaled = normalized * w_eff + ln_bias`;
`amax = max(abs(ln_out_unscaled))`; `ln_out = ln_out_unscaled * scale`;
outputs `(bda_out, ln_out, amax)`. -/
def specRefModel (sq : ℚ → ℚ) (last : ℕ)
    (x bias residual ln_weight ln_bias : List ℚ) (eps : ℚ)
    (zero_centered_gamma : Bool) (scale : ℚ) :
    List (List ℚ) × List (List ℚ) × ℚ :=
  let pre := List.zipWith (fun a b => a + b) (addBias last x bias) residual
  let bda_out := view2d last pre
  let w_eff := if zero_centered_gamma then ln_weight.map (fun v => 1 + v) else ln_weight
  let normalized := bda_out.map (fun row =>
    row.map (fun p => (p - mean row) / sq (varB row + eps)))
  let ln_out_unscaled := normalized.map (fun row =>
    List.zipWith (fun nw bi => nw + bi)
      (List.zipWith (fun n wi => n * wi) row w_eff) ln_bias)
  let amax := amaxOf ln_out_unscaled
  let ln_out := ln_out_unscaled.map (List.map (fun v => v * scale))
  (bda_out, ln_out, amax)

/-- Embedding of `torch.nn.functional.dropout`: in training mode, each element is zeroed
when its uniform-[0,1) draw falls below `p` and the survivors are scaled by
`1 / (1 - p)`; in eval mode it is the identity. The random draws are
supplied as `noise` (element `i` reads `noise[i]`, defaulting to 1, i.e.
"keep", past the end of the supplied draws). -/
def dropout (noise : List ℚ) (p : ℚ) (training : Bool) (l : List ℚ) : List ℚ :=
  if training then
    l.mapIdx (fun i v => if noise.getD i 1 < p then 0 else v / (1 - p))
  else l

/-- Embedding of `bias_dropout_add_fused`: `dropout(x + bias, p, training)` then
`residual + out`. -/
def bias_dropout_add_fused (noise : List ℚ) (last : ℕ)
    (x bias residual : List ℚ) (p : ℚ) (training : Bool) : List ℚ :=
  let out := dropout noise p training (addBias last x bias)
  List.zipWith (fun r v => r + v) residual out

/-- FP8 tensor metadata (`tex.FP8TensorMeta` at index 0): the quantization
scale and the slot `amax_history[0][0]` each call writes its amax into. -/
structure Meta where
  scale : ℚ
  amaxHist : ℚ
deriving DecidableEq, Repr

/-- The TE layer-norm kernel (`tex.layernorm_fwd_fp8` followed by the BF16
cast) is external library code; it is kept opaque as a function from the
2-D input, weights, bias, eps, zero-centered-gamma flag and scale to the
layer-norm output together with the amax it records. -/
def TeLnKernel : Type :=
  List (List ℚ) → List ℚ → List ℚ → ℚ → Bool → ℚ → List (List ℚ) × ℚ

/-- Embedding of `BiasAddLayerNormFP8TE.forward`: fused bias-dropout-add with dropout
probability 0 and training=True, view to 2-D, then the external TE
layer-norm kernel, which writes its amax into `meta.amax_history[0][0]`;
the returned third output reads that slot back. -/
def bias_add_ln_te (kernel : TeLnKernel) (noise : List ℚ) (last : ℕ)
    (x bias residual ln_weight ln_bias : List ℚ) (eps : ℚ)
    (zero_centered_gamma : Bool) (meta : Meta) :
    (List (List ℚ) × List (List ℚ) × ℚ) × Meta :=
  let bda_out := view2d last (bias_dropout_add_fused noise last x bias residual 0 true)
  let r := kernel bda_out ln_weight ln_bias eps zero_centered_gamma meta.scale
  let meta' : Meta := { meta with amaxHist := r.2 }
  ((bda_out, r.1, meta'.amaxHist), meta')

/-- The nvFuser fusion graph of `_BiasAddLayerNormFuser.forward`, node by
node: inputs are the (already 2-D) `x` and `residual`, the 1-D `bias`,
`ln_weight`, `ln_bias`, the scale and the amax tensor; `rsqrt` is modelled
as the reciprocal of `sq`. Outputs are `(T1, T31, T30)`: the bias-add
result, the scaled layer-norm output, and the freshly computed amax. The
declared input `amaxIn` feeds no node of the graph. -/
def fuserDefinition (sq : ℚ → ℚ) (x residual : List (List ℚ))
    (bias ln_weight ln_bias : List ℚ) (eps : ℚ)
    (zero_centered_gamma : Bool) (scale amaxIn : ℚ) :
    List (List ℚ) × List (List ℚ) × ℚ :=
  let _ := amaxIn
  let ln_weight_f := if zero_centered_gamma then ln_weight.map (fun v => 1 + v) else ln_weight
  -- Bias-Add: B0 broadcasts bias along dim 1; T0 = x + B0; T1 = T0 + residual
  let T0 := x.map (fun row => List.zipWith (fun a b => a + b) row bias)
  let T1 := List.zipWith (List.zipWith (fun a b => a + b)) T0 residual
  -- LayerNorm: var_mean over dim 1 with correction 0, rsqrt(var + eps)
  let T2 := T1.map varB
  let T3 := T1.map mean
  let T14 := T2.map (fun v => (sq (v + eps))⁻¹)
  let T19 := List.zipWith (fun row m => row.map (fun p => p - m)) T1 T3
  let T24 := List.zipWith (fun row r => row.map (fun p => p * r)) T19 T14
  let T26 := T24.map (fun row => List.zipWith (fun a w => a * w) row ln_weight_f)
  let T28 := T26.map (fun row => List.zipWith (fun a b => a + b) row ln_bias)
  -- Amax
  let T30 := amaxOf T28
  -- Scale
  let T31 := T28.map (List.map (fun v => v * scale))
  (T1, T31, T30)

/-- The unscaled layer-norm node `T28` of the nvFuser graph (the value whose
absolute maximum the fusion reduces into its third output `T30`). -/
def fuserUnscaledLn (sq : ℚ → ℚ) (x residual : List (List ℚ))
    (bias ln_weight ln_bias : List ℚ) (eps : ℚ)
    (zero_centered_gamma : Bool) : List (List ℚ) :=
  let ln_weight_f := if zero_centered_gamma then ln_weight.map (fun v => 1 + v) else ln_weight
  let T0 := x.map (fun row => List.zipWith (fun a b => a + b) row bias)
  let T1 := List.zipWith (List.zipWith (fun a b => a + b)) T0 residual
  let T2 := T1.map varB
  let T3 := T1.map mean
  let T14 := T2.map (fun v => (sq (v + eps))⁻¹)
  let T19 := List.zipWith (fun row m => row.map (fun p => p - m)) T1 T3
  let T24 := List.zipWith (fun row r => row.map (fun p => p * r)) T19 T14
  let T26 := T24.map (fun row => List.zipWith (fun a w => a * w) row ln_weight_f)
  T26.map (fun row => List.zipWith (fun a b => a + b) row ln_bias)

/-- Embedding of `BiasAddLayerNormFuser.forward`: views `x` and `residual` to 2-D and
executes the fusion; `meta` is read for the scale and the amax slot passed
as fusion inputs but is returned unchanged (the fusion allocates fresh
output tensors). -/
def bias_add_ln_nvfuser (sq : ℚ → ℚ) (last : ℕ)
    (x bias residual ln_weight ln_bias : List ℚ) (eps : ℚ)
    (zero_centered_gamma : Bool) (meta : Meta) :
    (List (List ℚ) × List (List ℚ) × ℚ) × Meta :=
  (fuserDefinition sq (view2d last x) (view2d last residual) bias ln_weight
    ln_bias eps zero_centered_gamma meta.scale meta.amaxHist, meta)

/-- The implementation selectors `bias_add_ln` recognizes. -/
def recognizedImpls : List String := ["native", "compile", "te", "nvfuser"]

/-- The dispatcher `bias_add_ln`: selects the implementation by the `impl`
string, threading the FP8 metadata (the native/compile path writes the
amax it computes into `meta.amax_history[0][0]` via `fill_`); an
unrecognized selector raises `ValueError` naming it, before any
computation or mutation. -/
def bias_add_ln (sq : ℚ → ℚ) (kernel : TeLnKernel) (noise : List ℚ)
    (impl : String) (last : ℕ)
    (x bias residual ln_weight ln_bias : List ℚ) (eps : ℚ)
    (zero_centered_gamma : Bool) (meta : Meta) :
    Except String (List (List ℚ) × List (List ℚ) × ℚ) × Meta :=
  if impl = "native" then
    let r := bias_add_ln_native sq last x bias residual ln_weight ln_bias eps
      zero_centered_gamma meta.scale meta.amaxHist
    (.ok (r.bda, r.lnOut, r.amaxAcc), { meta with amaxHist := r.amaxAcc })
  else if impl = "compile" then
    let r := bias_add_ln_compile sq last x bias residual ln_weight ln_bias eps
      zero_centered_gamma meta.scale meta.amaxHist
    (.ok (r.bda, r.lnOut, r.amaxAcc), { meta with amaxHist := r.amaxAcc })
  else if impl = "te" then
    let r := bias_add_ln_te kernel noise last x bias residual ln_weight ln_bias
      eps zero_centered_gamma meta
    (.ok r.1, r.2)
  else if impl = "nvfuser" then
    let r := bias_add_ln_nvfuser sq last x bias residual ln_weight ln_bias eps
      zero_centered_gamma meta
    (.ok r.1, r.2)
  else
    (.error ("Implementation \x27" ++ impl ++ "\x27 is not recognized."), meta)

/-! ## The comparison loop of `main` -/

/-- The list `all_impls` in `main`. -/
def allImpls : List String := ["native", "compile", "te", "nvfuser"]

/-- The implementations `main` actually executes: the loop over `all_impls`
is commented out and replaced by `for impl in ["nvfuser"]`. -/
def mainEnabledImpls : List String := ["nvfuser"]

/-- The stored forward result of one implementation, `(bda_out, ln_out, amax)`. -/
structure Fprop where
  bda : List (List ℚ)
  lnOut : List (List ℚ)
  amax : ℚ
deriving DecidableEq, Repr

/-- Embedding of `torch.amax(torch.abs(a - b))` for 2-D tensors. -/
def maxAbsDiff2d (a b : List (List ℚ)) : ℚ :=
  amaxOf (List.zipWith (List.zipWith (fun u v => u - v)) a b)

/-- Dictionary lookup `fprop_result[impl]`; `none` models a `KeyError`. -/
def lookupFprop (m : List (String × Fprop)) (k : String) : Option Fprop :=
  (m.find? (fun p => p.1 == k)).map Prod.snd

/-- The three quantities printed for one pair `(impl_cur, impl_ref)`:
max |bda_cur - bda_ref|, max |ln_cur - ln_ref|, |amax_cur - amax_ref|;
fails if either implementation has no stored result. -/
def comparePair (m : List (String × Fprop)) (a b : String) : Option (ℚ × ℚ × ℚ) := do
  let ra ← lookupFprop m a
  let rb ← lookupFprop m b
  pure (maxAbsDiff2d ra.bda rb.bda, maxAbsDiff2d ra.lnOut rb.lnOut, |ra.amax - rb.amax|)

/-- The index pairs `i < j` visited by the nested comparison loops, in
visit order. -/
def indexPairs {α : Type} : List α → List (α × α)
  | [] => []
  | x :: xs => xs.map (fun y => (x, y)) ++ indexPairs xs

/-- The fprop comparison block of `main`: for every pair `i < j` over
`all_impls` (not over the executed set), the three diffs; `none` when any
required `fprop_result` entry is missing. No threshold is applied. -/
def compareFprop (m : List (String × Fprop)) :
    Option (List ((String × String) × (ℚ × ℚ × ℚ))) :=
  (indexPairs allImpls).mapM (fun p => (comparePair m p.1 p.2).map (fun d => (p, d)))

/-- The `fprop_result` dictionary `main` builds: one entry per executed
implementation (`run` stands for the forward evaluation of one
implementation on the benchmark inputs). -/
def mainFpropResults (run : String → Fprop) : List (String × Fprop) :=
  mainEnabledImpls.map (fun s => (s, run s))

/-! ## Helper lemmas -/

theorem dropout_zero (noise : List ℚ) (training : Bool) (l : List ℚ)
    (h : ∀ v ∈ noise, 0 ≤ v) : dropout noise 0 training l = l := by
  cases training with
  | false => rfl
  | true =>
    apply List.ext_getElem (by simp [dropout])
    intro n h1 h2
    simp only [dropout, if_true, List.getElem_mapIdx]
    have hc : ¬ (noise.getD n 1 < 0) := by
      refine not_lt.mpr ?_
      rcases Nat.lt_or_ge n noise.length with hn | hn
      · rw [List.getD_eq_getElem _ _ hn]; exact h _ (List.getElem_mem hn)
      · rw [List.getD_eq_default _ _ hn]; norm_num
    rw [if_neg hc]
    norm_num

theorem length_view2d (n : ℕ) (l : List ℚ) :
    (view2d n l).length = l.length / n := by simp [view2d]

theorem length_mem_view2d {n : ℕ} {l : List ℚ} (hn : 0 < n) (hdvd : n ∣ l.length)
    {r : List ℚ} (hr : r ∈ view2d n l) : r.length = n := by
  simp only [view2d, List.mem_map, List.mem_range] at hr
  obtain ⟨i, hi, rfl⟩ := hr
  obtain ⟨q, hq⟩ := hdvd
  have hq' : l.length / n = q := by rw [hq]; exact Nat.mul_div_cancel_left q hn
  rw [hq'] at hi
  simp only [List.length_take, List.length_drop]
  refine inf_eq_left.mpr (Nat.le_sub_of_add_le ?_)
  rw [hq]
  calc n + n * i = n * (i + 1) := by ring
    _ ≤ n * q := Nat.mul_le_mul_left n (by omega)

theorem zipWith_replicate_self (f : ℚ → ℚ → ℚ) (l : List ℚ) (c : ℚ) :
    List.zipWith f l (List.replicate l.length c) = l.map (fun v => f v c) := by
  induction l with
  | nil => rfl
  | cons a t ih => simp [List.replicate_succ, ih]

theorem sum_map_sub_const (l : List ℚ) (c : ℚ) :
    (l.map (fun p => p - c)).sum = l.sum - l.length * c := by
  induction l with
  | nil => simp
  | cons a t ih => simp [ih]; ring

theorem sum_map_div (l : List ℚ) (s : ℚ) :
    (l.map (fun p => p / s)).sum = l.sum / s := by
  induction l with
  | nil => simp
  | cons a t ih => simp [ih]; ring

/-- Mean and biased variance of a row standardized by its own mean and by a
divisor `s` with `s * s = varB r + eps`: the mean is exactly 0 and the
variance is `varB r / (varB r + eps)`. -/
theorem normalized_row_mean_var (r : List ℚ) (s eps : ℚ) (hne : r ≠ [])
    (hs : s * s = varB r + eps) (hs0 : s ≠ 0) :
    mean (r.map (fun p => (p - mean r) / s)) = 0 ∧
    varB (r.map (fun p => (p - mean r) / s)) = varB r / (varB r + eps) := by
  have hn : (r.length : ℚ) ≠ 0 :=
    Nat.cast_ne_zero.mpr (List.length_pos.mpr hne).ne'
  have hsum : (r.map (fun p => (p - mean r) / s)).sum = 0 := by
    have : (r.map (fun p => (p - mean r) / s)) =
        (r.map (fun p => p - mean r)).map (fun q => q / s) := by
      rw [List.map_map]; rfl
    rw [this, sum_map_div, sum_map_sub_const]
    have : r.sum - (r.length : ℚ) * mean r = 0 := by
      rw [mean]; field_simp
    rw [this, zero_div]
  have hmean : mean (r.map (fun p => (p - mean r) / s)) = 0 := by
    rw [mean, hsum, zero_div]
  refine ⟨hmean, ?_⟩
  rw [varB, hmean]
  have hmap : (r.map (fun p => (p - mean r) / s)).map (fun p => (p - 0) ^ 2) =
      (r.map (fun p => (p - mean r) ^ 2)).map (fun q => q / (s * s)) := by
    rw [List.map_map, List.map_map]
    refine List.map_congr_left (fun p _ => ?_)
    simp only [Function.comp_apply, sub_zero, div_pow, pow_two]
    rw [div_mul_div_comm]
  rw [hmap, sum_map_div, List.length_map, hs]
  rw [varB]
  have hvne : varB r + eps ≠ 0 := by
    intro h0
    rw [h0] at hs
    exact hs0 (by nlinarith [sq_nonneg s])
  field_simp
  exact mul_div_mul_right _ _ hn

theorem zipWith_mul_replicate_one (f : ℚ → ℚ) (l : List ℚ) (n : ℕ)
    (h : l.length = n) :
    List.zipWith (fun p wi => f p * wi) l (List.replicate n 1) = l.map f := by
  subst h
  rw [zipWith_replicate_self]
  simp

theorem zipWith_add_replicate_zero (l : List ℚ) (n : ℕ) (h : l.length = n) :
    List.zipWith (fun a b => a + b) l (List.replicate n 0) = l := by
  subst h
  rw [zipWith_replicate_self]
  simp

/-! ## Theorems -/

/-- C1: for every valid input, the native implementation returns the triple
`(bda_out, ln_out, amax)` of the reference model of the spec: `bda_out` is
`x + broadcast bias + residual` reshaped to 2-D, `ln_out` is the per-row
layer normalization of `bda_out` (biased variance) affinely transformed by
the effective weight and `ln_bias` then multiplied by `scale`, and `amax`
is `max(abs(.))` of the unscaled layer-norm output. -/
theorem native_matches_spec_model (sq : ℚ → ℚ) (last : ℕ)
    (x bias residual ln_weight ln_bias : List ℚ) (eps : ℚ)
    (zcg : Bool) (scale amaxAccIn : ℚ) :
    specRefModel sq last x bias residual ln_weight ln_bias eps zcg scale =
      ((bias_add_ln_native sq last x bias residual ln_weight ln_bias eps zcg
          scale amaxAccIn).bda,
       (bias_add_ln_native sq last x bias residual ln_weight ln_bias eps zcg
          scale amaxAccIn).lnOut,
       (bias_add_ln_native sq last x bias residual ln_weight ln_bias eps zcg
          scale amaxAccIn).amaxAcc) := by
  simp only [specRefModel, bias_add_ln_native, nativeUnscaledLn, nativeBda,
    layer_norm, List.map_map, Function.comp_def, List.zipWith_map_left]

/-- C2: two native calls that differ only in the scale (1/2 versus 1)
return `ln_out`s related by elementwise multiplication by 1/2, and the
same amax (amax is computed from the unscaled layer-norm output). -/
theorem scale_half_halves_ln_out (sq : ℚ → ℚ) (last : ℕ)
    (x bias residual ln_weight ln_bias : List ℚ) (eps : ℚ)
    (zcg : Bool) (amaxAccIn : ℚ) :
    (bias_add_ln_native sq last x bias residual ln_weight ln_bias eps zcg
        (1/2) amaxAccIn).lnOut =
      ((bias_add_ln_native sq last x bias residual ln_weight ln_bias eps zcg
          1 amaxAccIn).lnOut).map (List.map (fun v => v * (1/2))) ∧
    (bias_add_ln_native sq last x bias residual ln_weight ln_bias eps zcg
        (1/2) amaxAccIn).amaxAcc =
      (bias_add_ln_native sq last x bias residual ln_weight ln_bias eps zcg
          1 amaxAccIn).amaxAcc := by
  constructor
  · simp [bias_add_ln_native, List.map_map, Function.comp_def]
  · rfl

/-- C3: the native forward with `zero_centered_gamma = true` and weight `w`
returns exactly the outputs of the forward with
`zero_centered_gamma = false` and weight `1 + w`. -/
theorem zero_centered_gamma_semantics (sq : ℚ → ℚ) (last : ℕ)
    (x bias residual ln_weight ln_bias : List ℚ) (eps : ℚ)
    (scale amaxAccIn : ℚ) :
    bias_add_ln_native sq last x bias residual ln_weight ln_bias eps true
        scale amaxAccIn =
      bias_add_ln_native sq last x bias residual
        (ln_weight.map (fun v => 1 + v)) ln_bias eps false scale amaxAccIn := rfl

/-- C5: the accumulator value after a native call equals
`max(abs(unscaled layer-norm output))` of that call alone, whatever value
the accumulator held before; in particular, after two successive calls
sharing the accumulator it holds the amax of the second call, regardless of
the (possibly larger) value left by the first call. -/
theorem amax_overwritten_each_call (sq sq2 : ℚ → ℚ) (last last2 : ℕ)
    (x bias residual ln_weight ln_bias x2 bias2 residual2 lnw2 lnb2 : List ℚ)
    (eps eps2 : ℚ) (zcg zcg2 : Bool) (scale scale2 a0 a1 : ℚ) :
    (bias_add_ln_native sq last x bias residual ln_weight ln_bias eps zcg
        scale a1).amaxAcc =
      amaxOf (nativeUnscaledLn sq last x bias residual ln_weight ln_bias eps zcg) ∧
    (bias_add_ln_native sq last x bias residual ln_weight ln_bias eps zcg scale
        ((bias_add_ln_native sq2 last2 x2 bias2 residual2 lnw2 lnb2 eps2 zcg2
            scale2 a0).amaxAcc)).amaxAcc =
      amaxOf (nativeUnscaledLn sq last x bias residual ln_weight ln_bias eps zcg) :=
  ⟨rfl, rfl⟩

/-- C6 (code bug): `main` executes only the implementations in
`mainEnabledImpls = ["nvfuser"]`, yet its comparison block iterates the
pairs of all four entries of `all_impls`; the first lookup
`fprop_result["native"]` has no entry, so the comparison fails (a
`KeyError`) instead of reporting diffs for pairs of the enabled set. -/
theorem compare_fails_on_main_enabled_set (run : String → Fprop) :
    compareFprop (mainFpropResults run) = none := rfl

/-- C7: an unrecognized implementation selector makes the dispatcher fail
with an error naming the selector, and the metadata (and everything else)
is left untouched: no part of the forward computation happens. -/
theorem unrecognized_impl_errors (sq : ℚ → ℚ) (kernel : TeLnKernel)
    (noise : List ℚ) (impl : String) (last : ℕ)
    (x bias residual ln_weight ln_bias : List ℚ) (eps : ℚ)
    (zcg : Bool) (meta : Meta) (h : impl ∉ recognizedImpls) :
    bias_add_ln sq kernel noise impl last x bias residual ln_weight ln_bias
        eps zcg meta =
      (.error ("Implementation \x27" ++ impl ++ "\x27 is not recognized."),
       meta) := by
  simp only [recognizedImpls, List.mem_cons, List.not_mem_nil, or_false,
    not_or] at h
  obtain ⟨h1, h2, h3, h4⟩ := h
  simp [bias_add_ln, h1, h2, h3, h4]

/-- Witness for C7 at the concrete selector `"foo"`. -/
theorem unrecognized_impl_errors_witness :
    "foo" ∉ recognizedImpls ∧
    bias_add_ln (fun _ => 0) (fun _ _ _ _ _ _ => ([], 0)) [] "foo" 2
        [0] [0] [0] [0] [0] 1 false ⟨1, 0⟩ =
      (.error ("Implementation \x27" ++ "foo" ++ "\x27 is not recognized."),
       ⟨1, 0⟩) :=
  ⟨by decide,
   unrecognized_impl_errors (fun _ => 0) (fun _ _ _ _ _ _ => ([], 0)) []
     "foo" 2 [0] [0] [0] [0] [0] 1 false ⟨1, 0⟩ (by decide)⟩

/-- C10: the outputs of the nvFuser fusion do not depend on the value of the
declared-but-unused `amax` fusion input; the module returns the metadata
(hence the amax accumulator of the caller) unchanged; and the third output is
the freshly computed `max(abs(T28))` of the unscaled layer-norm node of
the graph. -/
theorem nvfuser_amax_input_unused (sq : ℚ → ℚ) (last : ℕ)
    (x2 residual2 : List (List ℚ)) (x bias residual ln_weight ln_bias : List ℚ)
    (eps : ℚ) (zcg : Bool) (scale a1 a2 : ℚ) (meta : Meta) :
    fuserDefinition sq x2 residual2 bias ln_weight ln_bias eps zcg scale a1 =
      fuserDefinition sq x2 residual2 bias ln_weight ln_bias eps zcg scale a2 ∧
    (bias_add_ln_nvfuser sq last x bias residual ln_weight ln_bias eps zcg
        meta).2 = meta ∧
    (fuserDefinition sq x2 residual2 bias ln_weight ln_bias eps zcg scale
        a1).2.2 =
      amaxOf (fuserUnscaledLn sq x2 residual2 bias ln_weight ln_bias eps zcg) :=
  ⟨rfl, rfl, rfl⟩

/-- C4 counterexample: with `zero_centered_gamma = false` and
`ln_weight = 0`, the effective layer-norm weight is 0, so every element of
the unscaled layer-norm output is `ln_bias = 0`: at input row `[0, 2]` the
output row is `[0, 0]`, whose variance is exactly 0, not (within any
tolerance below 1) unit. -/
theorem zero_weight_row_has_zero_variance :
    nativeUnscaledLn (fun _ => 1) 2 [0, 2] [0, 0] [0, 0] [0, 0] [0, 0]
        (9/16) false = [[0, 0]] ∧
    varB ((nativeUnscaledLn (fun _ => 1) 2 [0, 2] [0, 0] [0, 0] [0, 0] [0, 0]
        (9/16) false).getD 0 []) = 0 ∧
    varB ((nativeUnscaledLn (fun _ => 1) 2 [0, 2] [0, 0] [0, 0] [0, 0] [0, 0]
        (9/16) false).getD 0 []) ≠ 1 := by
  have h1 : nativeUnscaledLn (fun _ => 1) 2 [0, 2] [0, 0] [0, 0] [0, 0] [0, 0]
      (9/16) false = [[0, 0]] := by
    norm_num [nativeUnscaledLn, layer_norm, nativeBda, view2d, addBias, mean,
      varB, List.mapIdx_cons, List.range_succ]
  refine ⟨h1, ?_, ?_⟩ <;> rw [h1] <;> norm_num [varB, mean]

/-- C4 (amended): with `zero_centered_gamma = false`, `ln_weight` all-ones
(so the effective weight is 1) and `ln_bias` all-zeros, every row of the
unscaled layer-norm output has exactly zero mean, and biased variance
`v / (v + eps)` where `v` is the variance of the corresponding bias-add row —
i.e. unit variance up to the `eps` regularization, whenever the supplied
square root is exact and nonzero on the values it is applied to. -/
theorem ln_rows_zero_mean_near_unit_variance (sq : ℚ → ℚ) (last : ℕ)
    (x bias residual : List ℚ) (eps : ℚ)
    (hpos : 0 < last) (hres : residual.length = x.length)
    (hdvd : last ∣ x.length)
    (hsq : ∀ r ∈ nativeBda last x bias residual,
        sq (varB r + eps) * sq (varB r + eps) = varB r + eps ∧
        sq (varB r + eps) ≠ 0) :
    ∀ i, i < (nativeBda last x bias residual).length →
      mean ((nativeUnscaledLn sq last x bias residual (List.replicate last 1)
          (List.replicate last 0) eps false).getD i []) = 0 ∧
      varB ((nativeUnscaledLn sq last x bias residual (List.replicate last 1)
          (List.replicate last 0) eps false).getD i []) =
        varB ((nativeBda last x bias residual).getD i []) /
          (varB ((nativeBda last x bias residual).getD i []) + eps) := by
  intro i hi
  have hlenpre :
      (List.zipWith (fun a b => a + b) (addBias last x bias) residual).length
        = x.length := by
    simp [addBias, List.length_zipWith, hres]
  have hdvd' : last ∣
      (List.zipWith (fun a b => a + b) (addBias last x bias) residual).length := by
    rw [hlenpre]; exact hdvd
  have hrowlen : ∀ r ∈ nativeBda last x bias residual, r.length = last :=
    fun r hr => length_mem_view2d hpos hdvd' hr
  have hU : nativeUnscaledLn sq last x bias residual (List.replicate last 1)
      (List.replicate last 0) eps false =
      (nativeBda last x bias residual).map
        (fun row => row.map (fun p => (p - mean row) / sq (varB row + eps))) := by
    unfold nativeUnscaledLn layer_norm
    simp only [Bool.false_eq_true, if_false]
    refine List.map_congr_left (fun row hrow => ?_)
    rw [zipWith_mul_replicate_one (fun p => (p - mean row) / sq (varB row + eps))
      row last (hrowlen row hrow)]
    exact zipWith_add_replicate_zero _ last
      (by rw [List.length_map]; exact hrowlen row hrow)
  have hiU : i < (nativeUnscaledLn sq last x bias residual
      (List.replicate last 1) (List.replicate last 0) eps false).length := by
    rw [hU, List.length_map]; exact hi
  rw [List.getD_eq_getElem _ _ hiU, List.getD_eq_getElem _ _ hi]
  have hrow :
      (nativeUnscaledLn sq last x bias residual (List.replicate last 1)
        (List.replicate last 0) eps false)[i] =
      ((nativeBda last x bias residual)[i]).map
        (fun p => (p - mean ((nativeBda last x bias residual)[i])) /
          sq (varB ((nativeBda last x bias residual)[i]) + eps)) := by
    simp only [hU, List.getElem_map]
  rw [hrow]
  have hmem := List.getElem_mem hi
  have hne : (nativeBda last x bias residual)[i] ≠ [] :=
    List.ne_nil_of_length_pos (by rw [hrowlen _ hmem]; exact hpos)
  exact normalized_row_mean_var _ _ eps hne (hsq _ hmem).1 (hsq _ hmem).2

/-- The square-root hypothesis of the amended C4 holds at the concrete
fixture: both bias-add rows `[0, 2]` and `[4, 6]` have variance 1, and the
supplied function returns the exact root `5/4` of `1 + 9/16`. -/
theorem fixture_hsq :
    ∀ r ∈ nativeBda 2 [0, 2, 4, 6] [0, 0] [0, 0, 0, 0],
      ((if varB r + 9/16 = 25/16 then (5 : ℚ)/4 else 1) *
        if varB r + 9/16 = 25/16 then (5 : ℚ)/4 else 1) =
          varB r + 9/16 ∧
      (if varB r + 9/16 = 25/16 then (5 : ℚ)/4 else 1) ≠ 0 := by
  have hB : nativeBda 2 [0, 2, 4, 6] [0, 0] [0, 0, 0, 0] = [[0, 2], [4, 6]] := by
    norm_num [nativeBda, view2d, addBias, List.mapIdx_cons, List.range_succ]
  rw [hB]
  intro r hr
  simp only [List.mem_cons, List.not_mem_nil, or_false] at hr
  rcases hr with rfl | rfl <;> norm_num [varB, mean]

/-- Witness for the amended C4 at a concrete input whose per-row variance
makes the square root exact: rows `[0, 2]` and `[4, 6]`, `eps = 9/16`,
`sqrt(1 + 9/16) = 5/4`. -/
theorem ln_rows_zero_mean_near_unit_variance_witness :
    (0 < 2 ∧ ([0, 0, 0, 0] : List ℚ).length = ([0, 2, 4, 6] : List ℚ).length ∧
      2 ∣ ([0, 2, 4, 6] : List ℚ).length ∧
      (∀ r ∈ nativeBda 2 [0, 2, 4, 6] [0, 0] [0, 0, 0, 0],
        ((if varB r + 9/16 = 25/16 then (5 : ℚ)/4 else 1) *
          if varB r + 9/16 = 25/16 then (5 : ℚ)/4 else 1) =
            varB r + 9/16 ∧
        (if varB r + 9/16 = 25/16 then (5 : ℚ)/4 else 1) ≠ 0) ∧
      0 < (nativeBda 2 [0, 2, 4, 6] [0, 0] [0, 0, 0, 0]).length) ∧
    (mean ((nativeUnscaledLn (fun q => if q = 25/16 then 5/4 else 1) 2
        [0, 2, 4, 6] [0, 0] [0, 0, 0, 0] (List.replicate 2 1)
        (List.replicate 2 0) (9/16) false).getD 0 []) = 0 ∧
      varB ((nativeUnscaledLn (fun q => if q = 25/16 then 5/4 else 1) 2
        [0, 2, 4, 6] [0, 0] [0, 0, 0, 0] (List.replicate 2 1)
        (List.replicate 2 0) (9/16) false).getD 0 []) =
        varB ((nativeBda 2 [0, 2, 4, 6] [0, 0] [0, 0, 0, 0]).getD 0 []) /
          (varB ((nativeBda 2 [0, 2, 4, 6] [0, 0] [0, 0, 0, 0]).getD 0 []) +
            9/16)) :=
  ⟨⟨by decide, by decide, by decide, fixture_hsq, by decide⟩,
   ln_rows_zero_mean_near_unit_variance
     (fun q => if q = 25/16 then 5/4 else 1) 2 [0, 2, 4, 6] [0, 0]
     [0, 0, 0, 0] (9/16) (by decide) (by decide) (by decide) fixture_hsq
     0 (by decide)⟩

/-- C9: with dropout probability 0 the fused bias-dropout-add is a no-op
dropout: for any draws of the dropout noise (uniform in `[0,1)`, hence
nonnegative) and either training flag, it returns `(x + bias) + residual`;
consequently the `bda_out` of the TE variant equals that of the native
variant on the same inputs. -/
theorem bias_dropout_fused_p0_noop (kernel : TeLnKernel) (noise : List ℚ)
    (last : ℕ) (x bias residual ln_weight ln_bias : List ℚ) (eps : ℚ)
    (zcg : Bool) (meta : Meta) (training : Bool)
    (h : ∀ v ∈ noise, 0 ≤ v) :
    bias_dropout_add_fused noise last x bias residual 0 training =
      List.zipWith (fun a b => a + b) (addBias last x bias) residual ∧
    (bias_add_ln_te kernel noise last x bias residual ln_weight ln_bias eps
        zcg meta).1.1 = nativeBda last x bias residual := by
  have hd : ∀ tr : Bool,
      bias_dropout_add_fused noise last x bias residual 0 tr =
        List.zipWith (fun a b => a + b) (addBias last x bias) residual := by
    intro tr
    unfold bias_dropout_add_fused
    rw [dropout_zero _ _ _ h]
    exact List.zipWith_comm_of_comm _ (fun a b => add_comm a b) _ _
  refine ⟨hd training, ?_⟩
  simp only [bias_add_ln_te]
  rw [hd true]
  rfl

/-- Witness for C9 at concrete inputs (empty noise list, training mode). -/
theorem bias_dropout_fused_p0_noop_witness :
    (∀ v ∈ ([] : List ℚ), 0 ≤ v) ∧
    (bias_dropout_add_fused [] 2 [1, 2, 3, 4] [10, 20] [5, 5, 5, 5] 0 true =
        List.zipWith (fun a b => a + b) (addBias 2 [1, 2, 3, 4] [10, 20])
          [5, 5, 5, 5] ∧
      (bias_add_ln_te (fun _ _ _ _ _ _ => ([], 0)) [] 2 [1, 2, 3, 4] [10, 20]
          [5, 5, 5, 5] [1, 1] [0, 0] 1 false ⟨1, 0⟩).1.1 =
        nativeBda 2 [1, 2, 3, 4] [10, 20] [5, 5, 5, 5]) :=
  ⟨by simp,
   bias_dropout_fused_p0_noop (fun _ _ _ _ _ _ => ([], 0)) [] 2 [1, 2, 3, 4]
     [10, 20] [5, 5, 5, 5] [1, 1] [0, 0] 1 false ⟨1, 0⟩ true (by simp)⟩

/-- C8: for valid inputs (`x` flat of shape `shape` with last dimension
`last = w_shape[-1]`, residual of the size of `x`, 1-D bias of length `last`),
the first output `bda_out` of the native, TE and nvFuser variants is 2-D
with `product(shape[:-1])` rows, each of length `last`. -/
theorem bda_out_shape (sq : ℚ → ℚ) (kernel : TeLnKernel) (noise : List ℚ)
    (shape : List ℕ) (last : ℕ)
    (x bias residual ln_weight ln_bias : List ℚ) (eps : ℚ) (zcg : Bool)
    (scale acc : ℚ) (meta : Meta)
    (hpos : 0 < last) (hlast : shape.getLast? = some last)
    (hx : x.length = shape.prod) (hres : residual.length = x.length)
    (hbias : bias.length = last) :
    ((bias_add_ln_native sq last x bias residual ln_weight ln_bias eps zcg
        scale acc).bda.length = (shape.dropLast).prod ∧
      ∀ r ∈ (bias_add_ln_native sq last x bias residual ln_weight ln_bias eps
        zcg scale acc).bda, r.length = last) ∧
    ((bias_add_ln_te kernel noise last x bias residual ln_weight ln_bias eps
        zcg meta).1.1.length = (shape.dropLast).prod ∧
      ∀ r ∈ (bias_add_ln_te kernel noise last x bias residual ln_weight
        ln_bias eps zcg meta).1.1, r.length = last) ∧
    ((bias_add_ln_nvfuser sq last x bias residual ln_weight ln_bias eps zcg
        meta).1.1.length = (shape.dropLast).prod ∧
      ∀ r ∈ (bias_add_ln_nvfuser sq last x bias residual ln_weight ln_bias
        eps zcg meta).1.1, r.length = last) := by
  obtain ⟨s0, rfl⟩ := List.getLast?_eq_some_iff.mp hlast
  have hdrop : (s0 ++ [last]).dropLast = s0 := List.dropLast_concat
  have hxlen : x.length = s0.prod * last := by
    rw [hx, List.prod_append]; simp
  have hdvd : last ∣ x.length := by rw [hxlen]; exact dvd_mul_left last s0.prod
  have hrows : x.length / last = s0.prod := by
    rw [hxlen]; exact Nat.mul_div_cancel _ hpos
  have hnat : (bias_add_ln_native sq last x bias residual ln_weight ln_bias
      eps zcg scale acc).bda = nativeBda last x bias residual := rfl
  have hte : (bias_add_ln_te kernel noise last x bias residual ln_weight
      ln_bias eps zcg meta).1.1 =
      view2d last (bias_dropout_add_fused noise last x bias residual 0 true) := rfl
  have hnv : (bias_add_ln_nvfuser sq last x bias residual ln_weight ln_bias
      eps zcg meta).1.1 =
      List.zipWith (List.zipWith (fun a b => a + b))
        ((view2d last x).map (fun row => List.zipWith (fun a b => a + b) row bias))
        (view2d last residual) := rfl
  have hlenpre :
      (List.zipWith (fun a b => a + b) (addBias last x bias) residual).length
        = x.length := by
    simp [addBias, hres]
  have hlenfused :
      (bias_dropout_add_fused noise last x bias residual 0 true).length
        = x.length := by
    simp [bias_dropout_add_fused, dropout, addBias, hres]
  refine ⟨⟨?_, ?_⟩, ⟨?_, ?_⟩, ⟨?_, ?_⟩⟩
  · rw [hnat, nativeBda, length_view2d, hlenpre, hrows, hdrop]
  · rw [hnat, nativeBda]
    intro r hr
    exact length_mem_view2d hpos (by rw [hlenpre]; exact hdvd) hr
  · rw [hte, length_view2d, hlenfused, hrows, hdrop]
  · rw [hte]
    intro r hr
    exact length_mem_view2d hpos (by rw [hlenfused]; exact hdvd) hr
  · rw [hnv, List.length_zipWith, List.length_map, length_view2d,
      length_view2d, hres, min_self, hrows, hdrop]
  · rw [hnv]
    intro r hr
    obtain ⟨i, hi, rfl⟩ := List.mem_iff_getElem.mp hr
    have hi' := hi
    rw [List.length_zipWith, lt_inf_iff, List.length_map] at hi'
    rw [List.getElem_zipWith, List.getElem_map, List.length_zipWith,
      List.length_zipWith]
    obtain ⟨hia, hib⟩ := hi'
    have h1 : ((view2d last x)[i]).length = last :=
      length_mem_view2d hpos hdvd (List.getElem_mem hia)
    have h2 : ((view2d last residual)[i]).length = last :=
      length_mem_view2d hpos (by rw [hres]; exact hdvd) (List.getElem_mem hib)
    rw [h1, h2, hbias, min_self, min_self]

/-- Witness for C8: `x` of shape `(2, 2)` flattened, `last = 2`. -/
theorem bda_out_shape_witness :
    (0 < 2 ∧ ([2, 2] : List ℕ).getLast? = some 2 ∧
      ([0, 1, 2, 3] : List ℚ).length = ([2, 2] : List ℕ).prod ∧
      ([0, 0, 0, 0] : List ℚ).length = ([0, 1, 2, 3] : List ℚ).length ∧
      ([0, 0] : List ℚ).length = 2) ∧
    (((bias_add_ln_native (fun _ => 1) 2 [0, 1, 2, 3] [0, 0] [0, 0, 0, 0]
        [0, 0] [0, 0] 1 false 1 0).bda.length = (([2, 2] : List ℕ).dropLast).prod ∧
      ∀ r ∈ (bias_add_ln_native (fun _ => 1) 2 [0, 1, 2, 3] [0, 0]
        [0, 0, 0, 0] [0, 0] [0, 0] 1 false 1 0).bda, r.length = 2) ∧
    ((bias_add_ln_te (fun _ _ _ _ _ _ => ([], 0)) [] 2 [0, 1, 2, 3] [0, 0]
        [0, 0, 0, 0] [0, 0] [0, 0] 1 false ⟨1, 0⟩).1.1.length =
        (([2, 2] : List ℕ).dropLast).prod ∧
      ∀ r ∈ (bias_add_ln_te (fun _ _ _ _ _ _ => ([], 0)) [] 2 [0, 1, 2, 3]
        [0, 0] [0, 0, 0, 0] [0, 0] [0, 0] 1 false ⟨1, 0⟩).1.1, r.length = 2) ∧
    ((bias_add_ln_nvfuser (fun _ => 1) 2 [0, 1, 2, 3] [0, 0] [0, 0, 0, 0]
        [0, 0] [0, 0] 1 false ⟨1, 0⟩).1.1.length =
        (([2, 2] : List ℕ).dropLast).prod ∧
      ∀ r ∈ (bias_add_ln_nvfuser (fun _ => 1) 2 [0, 1, 2, 3] [0, 0]
        [0, 0, 0, 0] [0, 0] [0, 0] 1 false ⟨1, 0⟩).1.1, r.length = 2)) :=
  ⟨⟨by decide, by decide, by decide, by decide, by decide⟩,
   bda_out_shape (fun _ => 1) (fun _ _ _ _ _ _ => ([], 0)) [] [2, 2] 2
     [0, 1, 2, 3] [0, 0] [0, 0, 0, 0] [0, 0] [0, 0] 1 false 1 0 ⟨1, 0⟩
     (by decide) (by decide) (by decide) (by decide) (by decide)⟩

end BiasAddLn
